import Mathlib

/-!
# Verification of the TopDeckParser pipeline (`src/main.py`)

A shallow embedding of the pure computational content of `main.py`:
the card-name normalizer, the decklist loader (including the line regex
`^(\d+)[xX]?\s+(.+?)(?:\s*\(([^)]+)\))?$`), the results-table parser
`parse_single_card_table`, the per-card fold of seller prices into the
running `seller_data` map, the report ordering, and the search-URL builder.

Modelling conventions:
* Python strings are `List Char` / `String`; machine floats are `ℚ`
  (the modelled subset of `float()` parses finite decimal literals, which is
  the shape of the price and quantity cells the program consumes; `inf`/`nan`
  literals and exponent notation are outside the model).  `int()` is modelled
  on ASCII digit strings with an optional sign (Unicode digits and `_`
  grouping are outside the model, as is `\d` matching non-ASCII digits).
* The HTML/DOM layer (BeautifulSoup, Playwright) is an external collaborator:
  a fetched page is modelled as `Option (List Row)` — `none` for empty HTML or
  a missing `table.js-singles-search`, otherwise the list of `tbody tr` rows,
  each row carrying its `td` cells with the already-extracted texts
  (`get_text(strip=True)` results), the optional qty-`span` text and the
  optional seller-anchor text.
* Python `dict` (insertion-ordered) is an association list; `defaultdict`
  read-insertion is modelled by the corresponding set-or-append operation.
* The uncaught `ValueError` that `int(...)` can raise inside
  `parse_single_card_table` is modelled with `Except String`.
* Python's stable `sorted` is modelled by a stable insertion sort.
-/

namespace TopDeck

/-! ## Character-level utilities -/

/-- Python `\s` / `str.strip` whitespace (the six ASCII whitespace chars). -/
def pySpace (c : Char) : Bool :=
  c == ' ' || c == '\t' || c == '\n' || c == '\r' || c == '\x0b' || c == '\x0c'

/-- ASCII digit test (models `\d` on the program's inputs). -/
def pyDigit (c : Char) : Bool :=
  '0' ≤ c && c ≤ '9'

/-- Drop trailing whitespace. -/
def dropEndWs (l : List Char) : List Char :=
  (l.reverse.dropWhile pySpace).reverse

/-- Python `str.strip()`. -/
def stripWs (l : List Char) : List Char :=
  dropEndWs (l.dropWhile pySpace)

/-- ASCII lower-casing of one character, as Python `str.lower` acts on the
program's ASCII inputs. -/
def lowerChar (c : Char) : Char :=
  if 65 ≤ c.toNat ∧ c.toNat ≤ 90 then Char.ofNat (c.toNat + 32) else c

/-- Python `str.lower()`. -/
def lowerL (l : List Char) : List Char :=
  l.map lowerChar

/-- Numeric value of a digit string (fold as positional notation). -/
def digitsToNat (l : List Char) : Nat :=
  l.foldl (fun n c => 10 * n + (c.toNat - 48)) 0

/-! ## The `\s*//.*` substitution and `normalize_card_name` -/

/-- The `.*` of the pattern `\s*//.*`: consume up to (but not including) the next
newline; `re.sub` resumes scanning at that newline. -/
def dropToEol : List Char → List Char
  | [] => []
  | c :: cs => if c = '\n' then c :: cs else dropToEol cs

/-- Attempt to match `\s*//` at the current position: the (maximal) whitespace
run must be followed immediately by `//`; returns the remainder after `//`. -/
def tryMatch (l : List Char) : Option (List Char) :=
  match l.dropWhile pySpace with
  | '/' :: '/' :: r => some r
  | _ => none

/-- Models `re.sub(r'\s*//.*', '', name)`: left-to-right scan, each match (whitespace
run, `//`, rest of line) is deleted and scanning resumes at the match end.
The `fuel` argument makes the recursion structural (each step consumes at
least one character, so `l.length` fuel always suffices; see
`subSlashF_fuel_irrel` and `subSlash_cons`). -/
def subSlashF : Nat → List Char → List Char
  | _, [] => []
  | 0, _ :: _ => []
  | fuel + 1, c :: cs =>
    match tryMatch (c :: cs) with
    | some r => subSlashF fuel (dropToEol r)
    | none => c :: subSlashF fuel cs

def subSlash (l : List Char) : List Char :=
  subSlashF l.length l

/-- Models `re.sub(r'\s+', ' ', name)`: each maximal whitespace run becomes one
space.  Fuel as in `subSlashF`. -/
def collapseWsF : Nat → List Char → List Char
  | _, [] => []
  | 0, _ :: _ => []
  | fuel + 1, c :: cs =>
    if pySpace c then ' ' :: collapseWsF fuel (cs.dropWhile pySpace)
    else c :: collapseWsF fuel cs

def collapseWs (l : List Char) : List Char :=
  collapseWsF l.length l

/-- Function `normalize_card_name` from `main.py`: strip, delete `\s*//.*`, collapse
whitespace runs to single spaces, lowercase. -/
def normalizeL (l : List Char) : List Char :=
  lowerL (collapseWs (subSlash (stripWs l)))

/-- String-level wrapper for `normalize_card_name`. -/
def normalize_card_name (s : String) : String :=
  ⟨normalizeL s.data⟩

/-! ## Decklist loader (`load_decklist`) -/

/-- One parsed decklist entry (the dict built at `main.py:47`). -/
structure CardRequest where
  qty : Int
  name : String
  normalized : String
  set : String
  deriving DecidableEq, Repr

/-- Does `pat` occur at the start of `l`?  (Python `str.startswith`.) -/
def startsWithL : List Char → List Char → Bool
  | [], _ => true
  | _ :: _, [] => false
  | p :: ps, c :: cs => p == c && startsWithL ps cs

/-- The optional tail `(?:\s*\(([^)]+)\))?$` of the line regex, tried at the
current split point: a (maximal) whitespace run, `(`, a nonempty run of
non-`)` characters (greedy), `)`, end of line.  Returns the captured group. -/
def tailParen (s : List Char) : Option (List Char) :=
  match s.dropWhile pySpace with
  | '(' :: rest =>
    let body := rest.takeWhile (fun c => c ≠ ')')
    if body.isEmpty then none
    else
      match rest.drop body.length with
      | [')'] => some body
      | _ => none
  | _ => none

/-- The lazy group `(.+?)` followed by the optional parenthesized set code:
grow the name one character at a time; at each split first try the
parenthesized tail, else accept end of input.  Returns (name, set group). -/
def findSplit (acc : List Char) : List Char → List Char × Option (List Char)
  | [] => (acc, none)
  | c :: rest =>
    match tailParen rest with
    | some body => (acc ++ [c], some body)
    | none =>
      if rest.isEmpty then (acc ++ [c], none)
      else findSplit (acc ++ [c]) rest

/-- Models `re.match(r'^(\d+)[xX]?\s+(.+?)(?:\s*\(([^)]+)\))?$', line)` on an
already-stripped line: a nonempty digit run, an optional `x`/`X`, at least one
whitespace character, then the name/set split.  (Backtracking collapses: a
shorter digit run leaves a digit where `[xX]?\s+` must match, and dropping the
optional `x` leaves the `x` where `\s+` must match, so the maximal runs are
the only candidates.) -/
def matchLine (l : List Char) : Option (Int × List Char × Option (List Char)) :=
  let ds := l.takeWhile pyDigit
  if ds.isEmpty then none
  else
    let r1 := l.drop ds.length
    let r2 :=
      match r1 with
      | c :: t => if c = 'x' ∨ c = 'X' then t else r1
      | [] => r1
    let ws := r2.takeWhile pySpace
    if ws.isEmpty then none
    else
      let r3 := r2.drop ws.length
      if r3.isEmpty then none
      else
        let ns := findSplit [] r3
        some ((digitsToNat ds : Int), ns.1, ns.2)

/-- Function `load_decklist` from `main.py`, abstracting the text file as its list of
lines: strip each line, skip blanks and `#`/`//` comments, match the line
regex, and build the entry dict; unmatched lines are skipped (with a printed
diagnostic, outside the model). -/
def load_decklist (lines : List String) : List CardRequest :=
  match lines with
  | [] => []
  | line :: rest =>
    let l := stripWs line.data
    if l.isEmpty || startsWithL ['#'] l || startsWithL ['/', '/'] l then
      load_decklist rest
    else
      match matchLine l with
      | some (q, nm, sc) =>
        { qty := q
          name := ⟨stripWs nm⟩
          normalized := ⟨normalizeL nm⟩
          set := ⟨lowerL (stripWs (sc.getD []))⟩ } :: load_decklist rest
      | none => load_decklist rest

/-! ## Numeric parsing (`int`, `float`) -/

/-- Python `int(s)` on the program's inputs: optional whitespace, optional
sign, a nonempty ASCII digit run. -/
def pyInt (s : String) : Option Int :=
  match stripWs s.data with
  | '+' :: ds => if ¬ds.isEmpty ∧ ds.all pyDigit then some (digitsToNat ds : Int) else none
  | '-' :: ds => if ¬ds.isEmpty ∧ ds.all pyDigit then some (-(digitsToNat ds : Int)) else none
  | ds => if ¬ds.isEmpty ∧ ds.all pyDigit then some (digitsToNat ds : Int) else none

/-- Unsigned decimal literal: `digits`, `digits.`, `digits.digits` or
`.digits`. -/
def pyFloatCore (l : List Char) : Option ℚ :=
  let ip := l.takeWhile pyDigit
  match l.drop ip.length with
  | [] => if ip.isEmpty then none else some (digitsToNat ip : ℚ)
  | '.' :: fr =>
    if fr.all pyDigit ∧ (¬ip.isEmpty ∨ ¬fr.isEmpty) then
      some ((digitsToNat ip : ℚ) + (digitsToNat fr : ℚ) / (10 : ℚ) ^ fr.length)
    else none
  | _ => none

/-- Python `float(s)` restricted to finite decimal literals (the shape of the
price cells this program consumes): optional whitespace, optional sign,
decimal literal. -/
def pyFloat (s : String) : Option ℚ :=
  match stripWs s.data with
  | '+' :: r => pyFloatCore r
  | '-' :: r => (pyFloatCore r).map Neg.neg
  | r => pyFloatCore r

/-! ## Table parser (`parse_single_card_table`)

The DOM layer is external: a `Td` carries what the parser extracts from a
`td` cell — the text of its `span[data-bind='text: qty']` if present, its
`get_text(strip=True)` text, and the text of its first `a` descendant if
present.  A missing `table.js-singles-search` (or empty HTML) is `none`. -/

structure Td where
  qtySpan : Option String
  text : String
  anchor : Option String
  deriving DecidableEq, Repr

structure Row where
  tds : List Td
  deriving DecidableEq, Repr

/-- Models `price_td.get_text(strip=True).replace("р.", "").strip()`: delete every
(non-overlapping, left-to-right) occurrence of `р.` (Cyrillic er, dot). -/
def removeRub : List Char → List Char
  | 'р' :: '.' :: rest => removeRub rest
  | c :: rest => c :: removeRub rest
  | [] => []

/-- The price text pipeline of `main.py:123`. -/
def priceText (t : Td) : String :=
  ⟨stripWs (removeRub t.text.data)⟩

/-- Models `seller_to_min_price[seller] = min(seller_to_min_price[seller], ppu)` on
the insertion-ordered `defaultdict(lambda: float('inf'))`: reading a missing
key inserts the infinite default, which the `min`-assignment immediately
overwrites.  Values live in `WithTop ℚ` so that the infinite default is a
value of the state type. -/
def updateMin (st : List (String × WithTop ℚ)) (s : String) (p : ℚ) :
    List (String × WithTop ℚ) :=
  match st with
  | [] => [(s, min ⊤ (p : WithTop ℚ))]
  | (a, v) :: rest =>
    if a = s then (a, min v (p : WithTop ℚ)) :: rest
    else (a, v) :: updateMin rest s p

/-- One iteration of the row loop of `parse_single_card_table`.  The bare
`int(...)` at `main.py:119` can raise `ValueError`; that exception is the
`Except.error` case.  A price that fails `float(...)` or a missing seller
anchor skips the row (`continue`). -/
def processRow (st : List (String × WithTop ℚ)) (r : Row) :
    Except String (List (String × WithTop ℚ)) :=
  if r.tds.length < 4 then .ok st
  else
    match r.tds with
    | t0 :: t1 :: t2 :: _ =>
      match (match t0.qtySpan with
             | some s => pyInt s
             | none => some 1) with
      | none => .error "ValueError: invalid literal for int()"
      | some qty =>
        match pyFloat (priceText t1) with
        | none => .ok st
        | some price =>
          match t2.anchor with
          | none => .ok st
          | some seller =>
            let ppu : ℚ := if 0 < qty then price / (qty : ℚ) else price
            .ok (updateMin st seller ppu)
    | _ => .ok st

/-- The row loop. -/
def parseRows (st : List (String × WithTop ℚ)) :
    List Row → Except String (List (String × WithTop ℚ))
  | [] => .ok st
  | r :: rest =>
    match processRow st r with
    | .error e => .error e
    | .ok st' => parseRows st' rest

/-- Function `parse_single_card_table` from `main.py` (the `card_query` argument only
feeds diagnostics and is dropped): empty HTML, a missing results table, or a
table with no body rows give the empty mapping; otherwise the rows are folded
into the seller→min-price map. -/
def parse_single_card_table (input : Option (List Row)) :
    Except String (List (String × WithTop ℚ)) :=
  match input with
  | none => .ok []
  | some rows =>
    if rows.isEmpty then .ok []
    else parseRows [] rows

/-- Decidable equality of parse results (used only to evaluate the model on
concrete inputs). -/
instance {e a : Type} [DecidableEq e] [DecidableEq a] : DecidableEq (Except e a) := fun x y =>
  match x, y with
  | .ok u, .ok v =>
    if h : u = v then .isTrue (by rw [h])
    else .isFalse (fun hh => h (by injection hh))
  | .error u, .error v =>
    if h : u = v then .isTrue (by rw [h])
    else .isFalse (fun hh => h (by injection hh))
  | .ok _, .error _ => .isFalse (fun hh => Except.noConfusion hh)
  | .error _, .ok _ => .isFalse (fun hh => Except.noConfusion hh)

/-- The (seller, unit price) offer a row contributes, if any — the pure
mirror of `processRow` used to specify it (meaningful on rows whose quantity
extraction does not raise). -/
def rowOffer (r : Row) : Option (String × ℚ) :=
  if r.tds.length < 4 then none
  else
    match r.tds with
    | t0 :: t1 :: t2 :: _ =>
      match (match t0.qtySpan with
             | some s => pyInt s
             | none => some 1) with
      | none => none
      | some qty =>
        match pyFloat (priceText t1) with
        | none => none
        | some price =>
          match t2.anchor with
          | none => none
          | some seller =>
            some (seller, if 0 < qty then price / (qty : ℚ) else price)
    | _ => none

/-- Does the quantity extraction of this row succeed (i.e. not raise)? -/
def rowQtyOk (r : Row) : Bool :=
  if r.tds.length < 4 then true
  else
    match r.tds with
    | t0 :: _ =>
      match t0.qtySpan with
      | some s => (pyInt s).isSome
      | none => true
    | [] => true

/-- The infimum (in `WithTop ℚ`) of the unit prices seller `s` gets from the
rows parsed in one call; `⊤` when `s` has no parsable row. -/
def minOffers (rows : List Row) (s : String) : WithTop ℚ :=
  (rows.filterMap rowOffer).foldr
    (fun q acc => if q.1 = s then min (q.2 : WithTop ℚ) acc else acc) ⊤

/-! ## Aggregator (`main.py:173-177`) and reporter (`main.py:191-215`) -/

/-- Association-list lookup with decidable `String` keys (insertion-ordered
Python `dict`). -/
def alookup {α : Type} (k : String) : List (String × α) → Option α
  | [] => none
  | (a, v) :: rest => if a = k then some v else alookup k rest

/-- Set a key's value in place, appending a new key at the end (Python `dict`
assignment). -/
def setAssoc {α : Type} (k : String) (v : α) : List (String × α) → List (String × α)
  | [] => [(k, v)]
  | (a, w) :: rest =>
    if a = k then (a, v) :: rest else (a, w) :: setAssoc k v rest

/-- The running aggregate `seller_data : seller → card → min unit price`. -/
abbrev SellerData : Type := List (String × List (String × ℚ))

/-- The per-card fold of `main.py:173-177`: for each (seller, price) pair of
one card's parse result, store the price for (seller, normalizedName) only if
no price is stored yet or the new price is strictly lower.  The
`defaultdict(dict)` read-insertion (`seller_data[seller]`) is the
`setAssoc` of the possibly-unchanged inner dict. -/
def fold_prices (sd : SellerData) (norm : String) :
    List (String × ℚ) → SellerData
  | [] => sd
  | (seller, price) :: rest =>
    let cards := (alookup seller sd).getD []
    let cards' :=
      match alookup norm cards with
      | none => setAssoc norm price cards
      | some old => if price < old then setAssoc norm price cards else cards
    fold_prices (setAssoc seller cards' sd) norm rest

/-- Price stored for seller `s`, card `c`. -/
def lookup2 (sd : SellerData) (s c : String) : Option ℚ :=
  (alookup s sd).bind (alookup c)

/-- Stable insertion of `a` into `l` before the first element `b` with
`le a b`. -/
def insertBy {α : Type} (le : α → α → Bool) (a : α) : List α → List α
  | [] => [a]
  | b :: l => if le a b then a :: b :: l else b :: insertBy le a l

/-- Python's stable `sorted(l, key=...)`: `sortBy le` where `le a b` means
"`a` may come before `b`" (ties keep input order). -/
def sortBy {α : Type} (le : α → α → Bool) (l : List α) : List α :=
  l.foldr (insertBy le) []

/-- The seller ordering of the report loops: `sorted(seller_data.items(),
key=lambda x: len(x[1]), reverse=True)` — stable descending by number of
covered cards. -/
def sellerLe (a b : String × List (String × ℚ)) : Bool :=
  b.2.length ≤ a.2.length

/-- The card ordering inside a seller's block: `sorted(cards.items(),
key=lambda x: x[1])` — stable ascending by stored price. -/
def cardLe (a b : String × ℚ) : Bool :=
  a.2 ≤ b.2

/-- The ordering shared by the console report and the `sellers_report.txt`
detail blocks (`main.py:191-194` and `212-215`): sellers stably sorted by
descending coverage, each block's cards stably sorted by ascending price. -/
def report_order (sd : SellerData) : SellerData :=
  (sortBy sellerLe sd).map (fun p => (p.1, sortBy cardLe p.2))

/-- Models `covered = len(cards)` of the summary loop (`main.py:203`). -/
def coverage (cards : List (String × ℚ)) : Nat :=
  cards.length

/-- Models `total = sum(cards.values())` of the summary loop (`main.py:205`). -/
def totalCost (cards : List (String × ℚ)) : ℚ :=
  (cards.map Prod.snd).sum

/-! ## Search URL (`main.py:157-161`) -/

/-- The query string: the raw card name, plus the parenthesized set code when
one is present (`card['set']` is truthy iff nonempty). -/
def buildQuery (c : CardRequest) : String :=
  if c.set ≠ "" then c.name ++ " (" ++ c.set ++ ")" else c.name

/-- Models `query.replace(' ', '+')`. -/
def plusForSpace (s : String) : String :=
  ⟨s.data.map (fun ch => if ch = ' ' then '+' else ch)⟩

/-- The fixed search endpoint. -/
def searchEndpoint : String :=
  "https://topdeck.ru/apps/toptrade/singles/search?q="

/-- The navigated URL for one card (`main.py:161`). -/
def build_url (c : CardRequest) : String :=
  searchEndpoint ++ plusForSpace (buildQuery c)

/-! ## Specification-side definitions -/

/-- The prices one card's parse result offers for seller `s`, in fold order. -/
def pricesFor (ps : List (String × ℚ)) (s : String) : List ℚ :=
  ps.filterMap (fun q => if q.1 = s then some q.2 else none)

/-- Minimum of a price list (`none` on the empty list). -/
def minQ? : List ℚ → Option ℚ
  | [] => none
  | p :: l =>
    some (match minQ? l with
          | none => p
          | some m => min p m)

/-- Combine a previously stored price with the minimum of newly folded
prices: keep whichever side exists, the min when both do. -/
def o2m : Option ℚ → Option ℚ → Option ℚ
  | some v, some m => some (min v m)
  | some v, none => some v
  | none, some m => some m
  | none, none => none

/-- The head character, if any, is not whitespace. -/
def headOkP (l : List Char) : Prop :=
  ∀ c, l.head? = some c → pySpace c = false

/-- The last character, if any, is not whitespace. -/
def lastOkP (l : List Char) : Prop :=
  ∀ c, l.getLast? = some c → pySpace c = false

/-- No two adjacent slashes (no `//` substring). -/
def NoDD (l : List Char) : Prop :=
  l.Chain' (fun a b => ¬(a = '/' ∧ b = '/'))

/-- No two adjacent whitespace characters. -/
def NoWW (l : List Char) : Prop :=
  l.Chain' (fun a b => ¬(pySpace a = true ∧ pySpace b = true))

/-- A fully normalized string: non-whitespace edges, no `//`, no whitespace
runs, only plain spaces as whitespace, entirely lowercase.  `normalizeL`
produces such strings from newline-free input and fixes them. -/
def CleanP (l : List Char) : Prop :=
  headOkP l ∧ lastOkP l ∧ NoDD l ∧ NoWW l ∧
    (∀ c ∈ l, pySpace c = true → c = ' ') ∧ (∀ c ∈ l, lowerChar c = c)

/-! ## Basic lemmas: fuel adequacy and unfolding equations -/

theorem length_dropWhile_le (p : Char → Bool) (l : List Char) :
    (l.dropWhile p).length ≤ l.length := by
  induction l with
  | nil => simp [List.dropWhile]
  | cons c cs ih =>
    simp only [List.dropWhile]
    cases p c
    · simp
    · simp only [List.length_cons]
      omega

theorem length_dropToEol_le (l : List Char) :
    (dropToEol l).length ≤ l.length := by
  induction l with
  | nil => simp [dropToEol]
  | cons c cs ih =>
    simp only [dropToEol]
    split
    · simp
    · simp only [List.length_cons]
      omega

theorem tryMatch_length {l r : List Char} (h : tryMatch l = some r) :
    r.length + 2 ≤ l.length := by
  have hd := length_dropWhile_le pySpace l
  unfold tryMatch at h
  split at h
  · rename_i r' heq
    injection h with h
    subst h
    rw [heq] at hd
    simp only [List.length_cons] at hd
    omega
  · exact absurd h (by simp)

theorem subSlashF_fuel_irrel :
    ∀ f g : Nat, ∀ l : List Char, l.length ≤ f → l.length ≤ g →
      subSlashF f l = subSlashF g l := by
  intro f
  induction f with
  | zero =>
    intro g l hf _
    have : l = [] := by
      cases l
      · rfl
      · simp at hf
    subst this
    cases g <;> rfl
  | succ f ih =>
    intro g l hf hg
    cases l with
    | nil => cases g <;> rfl
    | cons c cs =>
      cases g with
      | zero => simp at hg
      | succ g =>
        simp only [subSlashF]
        cases hm : tryMatch (c :: cs) with
        | some r =>
          have h1 := tryMatch_length hm
          have h2 := length_dropToEol_le r
          simp only [List.length_cons] at h1 hf hg
          exact ih g (dropToEol r) (by omega) (by omega)
        | none =>
          simp only [List.length_cons] at hf hg
          rw [ih g cs (by omega) (by omega)]

theorem subSlash_nil : subSlash [] = [] := rfl

theorem subSlash_cons (c : Char) (cs : List Char) :
    subSlash (c :: cs) =
      match tryMatch (c :: cs) with
      | some r => subSlash (dropToEol r)
      | none => c :: subSlash cs := by
  show subSlashF (cs.length + 1) (c :: cs) = _
  simp only [subSlashF]
  cases hm : tryMatch (c :: cs) with
  | some r =>
    have h1 := tryMatch_length hm
    have h2 := length_dropToEol_le r
    simp only [List.length_cons] at h1
    exact subSlashF_fuel_irrel cs.length (dropToEol r).length (dropToEol r)
      (by omega) (by omega)
  | none => rfl

theorem collapseWsF_fuel_irrel :
    ∀ f g : Nat, ∀ l : List Char, l.length ≤ f → l.length ≤ g →
      collapseWsF f l = collapseWsF g l := by
  intro f
  induction f with
  | zero =>
    intro g l hf _
    have : l = [] := by
      cases l
      · rfl
      · simp at hf
    subst this
    cases g <;> rfl
  | succ f ih =>
    intro g l hf hg
    cases l with
    | nil => cases g <;> rfl
    | cons c cs =>
      cases g with
      | zero => simp at hg
      | succ g =>
        simp only [collapseWsF]
        by_cases hc : pySpace c
        · rw [if_pos hc, if_pos hc]
          have h1 := length_dropWhile_le pySpace cs
          simp only [List.length_cons] at hf hg
          rw [ih g (cs.dropWhile pySpace) (by omega) (by omega)]
        · rw [if_neg hc, if_neg hc]
          simp only [List.length_cons] at hf hg
          rw [ih g cs (by omega) (by omega)]

theorem collapseWs_nil : collapseWs [] = [] := rfl

theorem collapseWs_cons (c : Char) (cs : List Char) :
    collapseWs (c :: cs) =
      if pySpace c then ' ' :: collapseWs (cs.dropWhile pySpace)
      else c :: collapseWs cs := by
  show collapseWsF (cs.length + 1) (c :: cs) = _
  simp only [collapseWsF]
  by_cases hc : pySpace c
  · rw [if_pos hc, if_pos hc]
    have h1 := length_dropWhile_le pySpace cs
    rw [collapseWsF_fuel_irrel cs.length (cs.dropWhile pySpace).length
      (cs.dropWhile pySpace) (by omega) (by omega)]
    rfl
  · rw [if_neg hc, if_neg hc]
    rfl

/-! ## Association-list lemmas -/

theorem alookup_setAssoc {α : Type} (k k' : String) (v : α) (l : List (String × α)) :
    alookup k' (setAssoc k v l) = if k = k' then some v else alookup k' l := by
  induction l with
  | nil =>
    by_cases h : k = k' <;> simp [setAssoc, alookup, h]
  | cons a rest ih =>
    obtain ⟨b, w⟩ := a
    by_cases hb : b = k
    · subst hb
      simp only [setAssoc, if_pos rfl]
      by_cases h : b = k' <;> simp [alookup, h]
    · simp only [setAssoc, if_neg hb]
      by_cases h : b = k'
      · subst h
        have hkb : ¬(k = b) := fun hh => hb hh.symm
        simp [alookup, hkb]
      · simp only [alookup, if_neg h]
        rw [ih]

theorem alookup_updateMin (st : List (String × WithTop ℚ)) (s k : String) (p : ℚ) :
    alookup k (updateMin st s p) =
      if s = k then some (min ((alookup k st).getD ⊤) (p : WithTop ℚ))
      else alookup k st := by
  induction st with
  | nil =>
    by_cases h : s = k <;> simp [updateMin, alookup, h]
  | cons a rest ih =>
    obtain ⟨b, v⟩ := a
    by_cases hb : b = s
    · subst hb
      simp only [updateMin, if_pos rfl]
      by_cases h : b = k
      · subst h
        simp [alookup]
      · simp [alookup, if_neg h]
    · simp only [updateMin, if_neg hb]
      by_cases h : b = k
      · subst h
        have hsb : ¬(s = b) := fun hh => hb hh.symm
        simp [alookup, hsb]
      · simp only [alookup, if_neg h]
        rw [ih]

theorem alookup_eq_none_iff {α : Type} (k : String) (l : List (String × α)) :
    alookup k l = none ↔ k ∉ l.map Prod.fst := by
  induction l with
  | nil => simp [alookup]
  | cons a rest ih =>
    obtain ⟨b, v⟩ := a
    by_cases h : b = k
    · subst h
      simp [alookup]
    · rw [List.map_cons, List.mem_cons]
      simp only [alookup, if_neg h]
      rw [ih]
      constructor
      · rintro hn (hh | hh)
        · exact h hh.symm
        · exact hn hh
      · intro hn hh
        exact hn (Or.inr hh)

theorem mem_alookup (st : List (String × WithTop ℚ)) (p : String × WithTop ℚ)
    (hnd : (st.map Prod.fst).Nodup) (hp : p ∈ st) :
    alookup p.1 st = some p.2 := by
  induction st with
  | nil => cases hp
  | cons a rest ih =>
    obtain ⟨b, v⟩ := a
    simp only [List.map_cons, List.nodup_cons] at hnd
    rcases List.mem_cons.mp hp with h | h
    · subst h
      simp [alookup]
    · have hb : ¬(b = p.1) := by
        intro hh
        exact hnd.1 (hh ▸ (List.mem_map.mpr ⟨p, h, rfl⟩))
      simp only [alookup, if_neg hb]
      exact ih hnd.2 h

theorem updateMin_keys (st : List (String × WithTop ℚ)) (s : String) (p : ℚ) :
    (updateMin st s p).map Prod.fst =
      if s ∈ st.map Prod.fst then st.map Prod.fst
      else st.map Prod.fst ++ [s] := by
  induction st with
  | nil => simp [updateMin]
  | cons a rest ih =>
    obtain ⟨b, v⟩ := a
    by_cases hb : b = s
    · subst hb
      simp [updateMin]
    · have hbs : ¬(s = b) := fun hh => hb hh.symm
      simp only [updateMin, if_neg hb, List.map_cons, ih, List.mem_cons]
      by_cases hmem : s ∈ rest.map Prod.fst
      · simp [hmem, hbs]
      · simp [hmem, hbs]

theorem updateMin_nodup (st : List (String × WithTop ℚ)) (s : String) (p : ℚ)
    (hnd : (st.map Prod.fst).Nodup) :
    ((updateMin st s p).map Prod.fst).Nodup := by
  rw [updateMin_keys]
  by_cases hmem : s ∈ st.map Prod.fst
  · simpa [hmem] using hnd
  · rw [if_neg hmem, List.nodup_append]
    refine ⟨hnd, List.nodup_singleton s, ?_⟩
    intro x hx hx'
    rw [List.mem_singleton] at hx'
    subst hx'
    exact hmem hx

/-! ## Row-level and table-level parser lemmas -/

theorem processRow_eq (st : List (String × WithTop ℚ)) (r : Row) :
    processRow st r =
      match rowOffer r with
      | some q => .ok (updateMin st q.1 q.2)
      | none =>
        if rowQtyOk r then .ok st
        else .error "ValueError: invalid literal for int()" := by
  by_cases hlen : r.tds.length < 4
  · simp [processRow, rowOffer, rowQtyOk, hlen]
  · rcases hshape : r.tds with _ | ⟨t0, _ | ⟨t1, _ | ⟨t2, rest⟩⟩⟩
    · rw [hshape] at hlen
      exact absurd (by simp) hlen
    · rw [hshape] at hlen
      refine absurd ?_ hlen
      simp
    · rw [hshape] at hlen
      refine absurd ?_ hlen
      simp
    · rw [hshape] at hlen
      unfold processRow rowOffer rowQtyOk
      rw [hshape]
      rw [if_neg hlen, if_neg hlen, if_neg hlen]
      cases hq : t0.qtySpan with
      | none =>
        cases hp : pyFloat (priceText t1) with
        | none => simp [hq, hp]
        | some price =>
          cases ha : t2.anchor with
          | none => simp [hq, hp, ha]
          | some seller => simp [hq, hp, ha]
      | some qs =>
        cases hi : pyInt qs with
        | none => simp [hq, hi]
        | some n =>
          cases hp : pyFloat (priceText t1) with
          | none => simp [hq, hi, hp]
          | some price =>
            cases ha : t2.anchor with
            | none => simp [hq, hi, hp, ha]
            | some seller => simp [hq, hi, hp, ha]

theorem minOffers_nil (s : String) : minOffers [] s = ⊤ := rfl

theorem minOffers_cons (r : Row) (rest : List Row) (s : String) :
    minOffers (r :: rest) s =
      match rowOffer r with
      | some q =>
        if q.1 = s then min (q.2 : WithTop ℚ) (minOffers rest s)
        else minOffers rest s
      | none => minOffers rest s := by
  unfold minOffers
  cases h : rowOffer r with
  | none => simp [List.filterMap_cons, h]
  | some q =>
    obtain ⟨s0, p⟩ := q
    by_cases hs : s0 = s <;> simp [List.filterMap_cons, h, hs]

theorem parseRows_lookup :
    ∀ (rows : List Row) (st m : List (String × WithTop ℚ)),
      parseRows st rows = .ok m → ∀ s : String,
      alookup s m =
        if minOffers rows s = ⊤ then alookup s st
        else some (min ((alookup s st).getD ⊤) (minOffers rows s)) := by
  intro rows
  induction rows with
  | nil =>
    intro st m h s
    simp only [parseRows] at h
    injection h with h
    subst h
    simp [minOffers_nil]
  | cons r rest ih =>
    intro st m h s
    simp only [parseRows] at h
    cases hpr : processRow st r with
    | error e =>
      rw [hpr] at h
      simp at h
    | ok st' =>
      rw [hpr] at h
      simp only [] at h
      rw [processRow_eq] at hpr
      rw [minOffers_cons]
      cases hro : rowOffer r with
      | none =>
        rw [hro] at hpr
        simp only [] at hpr
        by_cases hq : rowQtyOk r
        · rw [if_pos hq] at hpr
          injection hpr with hpr
          subst hpr
          exact ih st m h s
        · rw [if_neg hq] at hpr
          exact absurd hpr (by simp)
      | some q =>
        obtain ⟨s0, p⟩ := q
        rw [hro] at hpr
        simp only [] at hpr
        injection hpr with hpr
        subst hpr
        have hm := ih (updateMin st s0 p) m h s
        rw [alookup_updateMin] at hm
        simp only []
        by_cases hs : s0 = s
        · simp only [if_pos hs, Option.getD_some] at hm ⊢
          rw [if_neg (by simp [min_eq_top])]
          by_cases hM : minOffers rest s = ⊤
          · simp only [if_pos hM] at hm
            rw [hM, inf_top_eq]
            exact hm
          · simp only [if_neg hM] at hm
            rw [hm]
            congr 1
            exact inf_assoc _ _ _
        · simp only [if_neg hs] at hm ⊢
          exact hm

theorem alookup_nil {α : Type} (k : String) :
    alookup k ([] : List (String × α)) = none := rfl

theorem parseRows_nodup :
    ∀ (rows : List Row) (st m : List (String × WithTop ℚ)),
      (st.map Prod.fst).Nodup → parseRows st rows = .ok m →
      (m.map Prod.fst).Nodup := by
  intro rows
  induction rows with
  | nil =>
    intro st m hnd h
    simp only [parseRows] at h
    injection h with h
    subst h
    exact hnd
  | cons r rest ih =>
    intro st m hnd h
    simp only [parseRows] at h
    cases hpr : processRow st r with
    | error e =>
      rw [hpr] at h
      simp at h
    | ok st' =>
      rw [hpr] at h
      simp only [] at h
      rw [processRow_eq] at hpr
      cases hro : rowOffer r with
      | none =>
        rw [hro] at hpr
        simp only [] at hpr
        by_cases hq : rowQtyOk r
        · rw [if_pos hq] at hpr
          injection hpr with hpr
          subst hpr
          exact ih st m hnd h
        · rw [if_neg hq] at hpr
          exact absurd hpr (by simp)
      | some q =>
        rw [hro] at hpr
        simp only [] at hpr
        injection hpr with hpr
        subst hpr
        exact ih _ m (updateMin_nodup st q.1 q.2 hnd) h

theorem minOffers_attained :
    ∀ (rows : List Row) (s : String), minOffers rows s ≠ ⊤ →
      ∃ r ∈ rows, ∃ q : ℚ,
        rowOffer r = some (s, q) ∧ minOffers rows s = (q : WithTop ℚ) := by
  intro rows
  induction rows with
  | nil =>
    intro s h
    exact absurd rfl h
  | cons r rest ih =>
    intro s h
    rw [minOffers_cons] at h ⊢
    cases hro : rowOffer r with
    | none =>
      rw [hro] at h
      simp only [] at h ⊢
      obtain ⟨r', hr', q, hq, hv⟩ := ih s h
      exact ⟨r', List.mem_cons_of_mem _ hr', q, hq, hv⟩
    | some q0 =>
      obtain ⟨s0, p⟩ := q0
      rw [hro] at h
      simp only [] at h ⊢
      by_cases hs : s0 = s
      · rw [if_pos hs] at h ⊢
        rcases le_total ((p : WithTop ℚ)) (minOffers rest s) with hle | hle
        · refine ⟨r, List.mem_cons_self r rest, p, ?_, ?_⟩
          · rw [hro, hs]
          · exact inf_eq_left.mpr hle
        · rw [inf_eq_right.mpr hle] at h ⊢
          obtain ⟨r', hr', q, hq, hv⟩ := ih s h
          exact ⟨r', List.mem_cons_of_mem _ hr', q, hq, hv⟩
      · rw [if_neg hs] at h ⊢
        obtain ⟨r', hr', q, hq, hv⟩ := ih s h
        exact ⟨r', List.mem_cons_of_mem _ hr', q, hq, hv⟩

theorem parseRows_ok_of_qtyOk :
    ∀ (rows : List Row), (∀ r ∈ rows, rowQtyOk r = true) →
      ∀ st, ∃ m, parseRows st rows = .ok m := by
  intro rows
  induction rows with
  | nil =>
    intro _ st
    exact ⟨st, rfl⟩
  | cons r rest ih =>
    intro hok st
    simp only [parseRows]
    rw [processRow_eq]
    cases hro : rowOffer r with
    | none =>
      rw [if_pos (hok r (List.mem_cons_self r rest))]
      exact ih (fun r' hr' => hok r' (List.mem_cons_of_mem _ hr')) st
    | some q =>
      exact ih (fun r' hr' => hok r' (List.mem_cons_of_mem _ hr')) (updateMin st q.1 q.2)

/-! ## Claim C2 -/

/-- C2 (amended): whenever `parse_single_card_table` returns normally, the
returned mapping assigns to each seller exactly the minimum unit price over
that seller's parsable rows of this one call (sellers with no parsable row
are absent); and the two-row example (seller "A", qty 1 price 100 and qty 2
price 150) yields `{"A": 75}`, the minimum rather than the first. -/
theorem C2_parse_min :
    (∀ (rows : List Row) (m : List (String × WithTop ℚ)),
        parse_single_card_table (some rows) = .ok m →
        ∀ s : String,
          alookup s m =
            if minOffers rows s = ⊤ then none else some (minOffers rows s))
    ∧ parse_single_card_table (some
        [⟨[⟨none, "1", none⟩, ⟨none, "100", none⟩, ⟨none, "", some "A"⟩, ⟨none, "", none⟩]⟩,
         ⟨[⟨some "2", "", none⟩, ⟨none, "150", none⟩, ⟨none, "", some "A"⟩, ⟨none, "", none⟩]⟩])
      = .ok [("A", ((75 : ℚ) : WithTop ℚ))] := by
  constructor
  · intro rows m h s
    unfold parse_single_card_table at h
    cases rows with
    | nil =>
      simp only [List.isEmpty_nil, if_true] at h
      injection h with h
      subst h
      simp [alookup_nil, minOffers_nil]
    | cons r rest =>
      simp only [List.isEmpty_cons, Bool.false_eq_true, if_false] at h
      have hc := parseRows_lookup (r :: rest) [] m h s
      rw [alookup_nil] at hc
      simpa [top_inf_eq] using hc
  · have h1 : pyFloat (priceText ⟨none, "100", none⟩) = some 100 := by decide
    have h2 : pyFloat (priceText ⟨none, "150", none⟩) = some 150 := by decide
    have h3 : pyInt "2" = some 2 := by decide
    simp only [parse_single_card_table, parseRows, processRow, h1, h2, h3, updateMin]
    norm_num [top_inf_eq, ← WithTop.coe_min, min_def]
    norm_num [updateMin, ← WithTop.coe_min, min_def]
    exact WithTop.coe_lt_coe.mpr (by norm_num)

/-- C2 as stated is false: `parse_single_card_table` does not return a
mapping on every input — a present but non-integer quantity span makes the
bare `int(...)` of `main.py:119` raise, so this input produces an exception,
not a mapping. -/
theorem C2_cex :
    parse_single_card_table (some
      [⟨[⟨some "1.5", "", none⟩, ⟨none, "100", none⟩, ⟨none, "", some "A"⟩, ⟨none, "", none⟩]⟩])
      = .error "ValueError: invalid literal for int()" := by
  decide

theorem C2_witness :
    (parse_single_card_table (some
        [⟨[⟨some "0", "", none⟩, ⟨none, "100", none⟩, ⟨none, "", some "A"⟩, ⟨none, "", none⟩]⟩,
         ⟨[⟨some "0", "", none⟩, ⟨none, "80", none⟩, ⟨none, "", some "A"⟩, ⟨none, "", none⟩]⟩])
      = .ok [("A", ((80 : ℚ) : WithTop ℚ))])
    ∧ alookup "A" [("A", ((80 : ℚ) : WithTop ℚ))] =
        if minOffers
            [⟨[⟨some "0", "", none⟩, ⟨none, "100", none⟩, ⟨none, "", some "A"⟩, ⟨none, "", none⟩]⟩,
             ⟨[⟨some "0", "", none⟩, ⟨none, "80", none⟩, ⟨none, "", some "A"⟩, ⟨none, "", none⟩]⟩] "A" = ⊤
          then none
          else some (minOffers
            [⟨[⟨some "0", "", none⟩, ⟨none, "100", none⟩, ⟨none, "", some "A"⟩, ⟨none, "", none⟩]⟩,
             ⟨[⟨some "0", "", none⟩, ⟨none, "80", none⟩, ⟨none, "", some "A"⟩, ⟨none, "", none⟩]⟩] "A") :=
  ⟨by decide, C2_parse_min.1 _ _ (by decide) "A"⟩

/-! ## Claim C3 -/

/-- C3 as stated is false: a row whose quantity sub-element is present but
not parsable as an integer does not fall back to quantity 1 — the bare
`int(...)` raises and the error propagates out of `parse_single_card_table`. -/
theorem C3_cex :
    parse_single_card_table (some
      [⟨[⟨some "abc", "", none⟩, ⟨none, "100", none⟩, ⟨none, "", some "A"⟩, ⟨none, "", none⟩]⟩])
      = .error "ValueError: invalid literal for int()" := by
  decide

/-- C3 (amended): the default quantity 1 is used only when the quantity
sub-element is absent (such a row parses, contributing its raw price as unit
price); and when no row has a present-but-unparsable quantity span, no error
propagates — the parser returns normally. -/
theorem C3_qty_behavior :
    (∀ (t0 t1 t2 t3 : Td) (p : ℚ) (s : String),
        t0.qtySpan = none →
        pyFloat (priceText t1) = some p →
        t2.anchor = some s →
        rowOffer ⟨[t0, t1, t2, t3]⟩ = some (s, p))
    ∧ ∀ rows : List Row, (∀ r ∈ rows, rowQtyOk r = true) →
        ∃ m, parse_single_card_table (some rows) = .ok m := by
  constructor
  · intro t0 t1 t2 t3 p s hq hp ha
    simp [rowOffer, hq, hp, ha]
  · intro rows hok
    unfold parse_single_card_table
    cases rows with
    | nil => exact ⟨[], rfl⟩
    | cons r rest =>
      simp only [List.isEmpty_cons, Bool.false_eq_true, if_false]
      exact parseRows_ok_of_qtyOk (r :: rest) hok []

theorem C3_witness :
    ((⟨none, "", none⟩ : Td).qtySpan = none
      ∧ pyFloat (priceText ⟨none, "100", none⟩) = some 100
      ∧ (⟨none, "", some "A"⟩ : Td).anchor = some "A"
      ∧ rowOffer ⟨[⟨none, "", none⟩, ⟨none, "100", none⟩, ⟨none, "", some "A"⟩, ⟨none, "", none⟩]⟩
          = some ("A", (100 : ℚ)))
    ∧ ((∀ r ∈ [(⟨[⟨none, "", none⟩, ⟨none, "100", none⟩, ⟨none, "", some "A"⟩, ⟨none, "", none⟩]⟩ : Row)],
          rowQtyOk r = true)
      ∧ ∃ m, parse_single_card_table (some
          [⟨[⟨none, "", none⟩, ⟨none, "100", none⟩, ⟨none, "", some "A"⟩, ⟨none, "", none⟩]⟩]) = .ok m) :=
  ⟨⟨rfl, by decide, rfl,
      C3_qty_behavior.1 _ _ _ _ 100 "A" rfl (by decide) rfl⟩,
    ⟨by decide, C3_qty_behavior.2 _ (by decide)⟩⟩

/-! ## Claim C7 -/

/-- C7: for a parsed row the unit price is the parsed price divided by the
parsed quantity when that quantity is positive, and the raw parsed price
otherwise (`main.py:136`). -/
theorem C7_unit_price :
    ∀ (qs pt ss : String) (t3 : Td) (n : Int) (p : ℚ),
      pyInt qs = some n →
      pyFloat (priceText ⟨none, pt, none⟩) = some p →
      parse_single_card_table (some
        [⟨[⟨some qs, "", none⟩, ⟨none, pt, none⟩, ⟨none, "", some ss⟩, t3]⟩])
        = .ok [(ss, ((if 0 < n then p / (n : ℚ) else p : ℚ) : WithTop ℚ))] := by
  intro qs pt ss t3 n p hi hp
  simp [parse_single_card_table, parseRows, processRow, updateMin, hi, hp]

theorem C7_witness :
    pyInt "-2" = some (-2)
    ∧ pyFloat (priceText ⟨none, "10", none⟩) = some 10
    ∧ parse_single_card_table (some
        [⟨[⟨some "-2", "", none⟩, ⟨none, "10", none⟩, ⟨none, "", some "B"⟩, ⟨none, "", none⟩]⟩])
        = .ok [("B", ((if 0 < (-2 : Int) then (10 : ℚ) / ((-2 : Int) : ℚ) else (10 : ℚ) : ℚ) : WithTop ℚ))] :=
  ⟨by decide, by decide,
    C7_unit_price "-2" "10" "B" ⟨none, "", none⟩ (-2) 10 (by decide) (by decide)⟩

/-! ## Claim C10 -/

/-- C10: every value of a returned mapping is finite (the internal infinite
default never escapes) and is the unit price of an actually parsed row. -/
theorem C10_parse_values :
    ∀ (input : Option (List Row)) (m : List (String × WithTop ℚ)),
      parse_single_card_table input = .ok m →
      ∀ p ∈ m, p.2 ≠ ⊤ ∧
        ∃ rows, input = some rows ∧
          ∃ r ∈ rows, ∃ q : ℚ, rowOffer r = some (p.1, q) ∧ p.2 = (q : WithTop ℚ) := by
  intro input m h p hp
  cases input with
  | none =>
    unfold parse_single_card_table at h
    injection h with h
    subst h
    cases hp
  | some rows =>
    unfold parse_single_card_table at h
    cases rows with
    | nil =>
      simp only [List.isEmpty_nil, if_true] at h
      injection h with h
      subst h
      cases hp
    | cons r rest =>
      simp only [List.isEmpty_cons, Bool.false_eq_true, if_false] at h
      have hnodup := parseRows_nodup (r :: rest) [] m (by simp) h
      have hlk := mem_alookup m p hnodup hp
      have hchar := parseRows_lookup (r :: rest) [] m h p.1
      rw [alookup_nil, hlk] at hchar
      by_cases hM : minOffers (r :: rest) p.1 = ⊤
      · rw [if_pos hM] at hchar
        cases hchar
      · rw [if_neg hM] at hchar
        simp only [Option.getD_none, top_inf_eq] at hchar
        injection hchar with hchar
        obtain ⟨r', hr', q, hq, hv⟩ := minOffers_attained (r :: rest) p.1 hM
        refine ⟨?_, (r :: rest), rfl, r', hr', q, hq, ?_⟩
        · rw [hchar]
          exact hM
        · rw [hchar]
          exact hv

theorem C10_witness :
    (parse_single_card_table (some
        [⟨[⟨some "0", "", none⟩, ⟨none, "40", none⟩, ⟨none, "", some "C"⟩, ⟨none, "", none⟩]⟩])
      = .ok [("C", ((40 : ℚ) : WithTop ℚ))])
    ∧ (("C", ((40 : ℚ) : WithTop ℚ)) ∈ [("C", ((40 : ℚ) : WithTop ℚ))])
    ∧ (("C", ((40 : ℚ) : WithTop ℚ)).2 ≠ ⊤ ∧
        ∃ rows, (some
          [(⟨[⟨some "0", "", none⟩, ⟨none, "40", none⟩, ⟨none, "", some "C"⟩, ⟨none, "", none⟩]⟩ : Row)]
            : Option (List Row)) = some rows ∧
          ∃ r ∈ rows, ∃ q : ℚ,
            rowOffer r = some (("C", ((40 : ℚ) : WithTop ℚ)).1, q)
            ∧ (("C", ((40 : ℚ) : WithTop ℚ))).2 = (q : WithTop ℚ)) :=
  ⟨by decide, by decide,
    C10_parse_values
      (some [⟨[⟨some "0", "", none⟩, ⟨none, "40", none⟩, ⟨none, "", some "C"⟩, ⟨none, "", none⟩]⟩])
      [("C", ((40 : ℚ) : WithTop ℚ))] (by decide)
      ("C", ((40 : ℚ) : WithTop ℚ)) (by decide)⟩

/-! ## Claim C1 -/

theorem o2m_none_right (a : Option ℚ) : o2m a none = a := by
  cases a <;> rfl

theorem o2m_step (a : Option ℚ) (p : ℚ) (l : List ℚ) :
    o2m (o2m a (some p)) (minQ? l) = o2m a (minQ? (p :: l)) := by
  simp only [minQ?]
  cases a with
  | none => cases hm : minQ? l <;> simp [o2m, hm]
  | some v => cases hm : minQ? l <;> simp [o2m, hm, min_assoc]

theorem pricesFor_cons (s0 : String) (p : ℚ) (rest : List (String × ℚ)) (s : String) :
    pricesFor ((s0, p) :: rest) s =
      if s0 = s then p :: pricesFor rest s else pricesFor rest s := by
  by_cases h : s0 = s <;> simp [pricesFor, List.filterMap_cons, h]

theorem lookup2_setAssoc (sd : SellerData) (k : String) (cards : List (String × ℚ))
    (s c : String) :
    lookup2 (setAssoc k cards sd) s c =
      if k = s then alookup c cards else lookup2 sd s c := by
  unfold lookup2
  rw [alookup_setAssoc]
  by_cases h : k = s <;> simp [h]

theorem alookup_getD_lookup2 (sd : SellerData) (s c : String) :
    alookup c ((alookup s sd).getD []) = lookup2 sd s c := by
  unfold lookup2
  cases h : alookup s sd <;> simp [alookup_nil]

/-- C1: the per-card fold of `main.py:173-177` stores, for each
(seller, normalizedName), exactly the minimum of the previously stored price
and the prices of this fold (and leaves every other entry unchanged), so a
stored price never increases; folding `{"A": 100}` then `{"A": 80}` for the
same normalized card leaves 80, and a later fold of `{"A": 90}` keeps 80. -/
theorem C1_fold_min_invariant :
    (∀ (n : String) (ps : List (String × ℚ)) (sd : SellerData) (s c : String),
      lookup2 (fold_prices sd n ps) s c =
        if c = n then o2m (lookup2 sd s c) (minQ? (pricesFor ps s))
        else lookup2 sd s c)
    ∧ lookup2 (fold_prices (fold_prices [] "card" [("A", 100)]) "card" [("A", 80)])
        "A" "card" = some 80
    ∧ lookup2 (fold_prices (fold_prices (fold_prices [] "card" [("A", 100)])
        "card" [("A", 80)]) "card" [("A", 90)]) "A" "card" = some 80 := by
  refine ⟨?_, by decide, by decide⟩
  intro n ps
  induction ps with
  | nil =>
    intro sd s c
    simp only [fold_prices, pricesFor, List.filterMap_nil, minQ?, o2m_none_right]
    exact (ite_self _).symm
  | cons q rest ih =>
    obtain ⟨seller, price⟩ := q
    intro sd s c
    simp only [fold_prices]
    rw [ih, lookup2_setAssoc, pricesFor_cons]
    by_cases hcn : c = n
    · by_cases hss : seller = s
      · rw [if_pos hcn, if_pos hcn, if_pos hss, if_pos hss]
        subst hcn
        subst hss
        have hkey :
            alookup c
              (match alookup c ((alookup seller sd).getD []) with
               | none => setAssoc c price ((alookup seller sd).getD [])
               | some old =>
                 if price < old then setAssoc c price ((alookup seller sd).getD [])
                 else (alookup seller sd).getD []) =
            o2m (lookup2 sd seller c) (some price) := by
          rw [← alookup_getD_lookup2]
          cases halo : alookup c ((alookup seller sd).getD []) with
          | none =>
            simp only []
            rw [alookup_setAssoc, if_pos rfl]
            rfl
          | some old =>
            simp only []
            by_cases hlt : price < old
            · rw [if_pos hlt, alookup_setAssoc, if_pos rfl]
              simp only [o2m]
              rw [min_eq_right (le_of_lt hlt)]
            · rw [if_neg hlt]
              simp only [o2m]
              rw [min_eq_left (le_of_not_lt hlt)]
              exact halo
        rw [hkey, o2m_step]
      · rw [if_pos hcn, if_pos hcn, if_neg hss, if_neg hss]
    · by_cases hss : seller = s
      · rw [if_neg hcn, if_neg hcn, if_pos hss]
        subst hss
        have hnc : ¬(n = c) := fun hh => hcn hh.symm
        cases halo : alookup n ((alookup seller sd).getD []) with
        | none =>
          simp only []
          rw [alookup_setAssoc, if_neg hnc, alookup_getD_lookup2]
        | some old =>
          simp only []
          by_cases hlt : price < old
          · rw [if_pos hlt, alookup_setAssoc, if_neg hnc, alookup_getD_lookup2]
          · rw [if_neg hlt, alookup_getD_lookup2]
      · rw [if_neg hcn, if_neg hcn, if_neg hss]

/-! ## Claim C6 -/

theorem mem_insertBy {α : Type} (le : α → α → Bool) (a x : α) :
    ∀ l : List α, x ∈ insertBy le a l → x = a ∨ x ∈ l := by
  intro l
  induction l with
  | nil =>
    intro h
    simp [insertBy] at h
    exact Or.inl h
  | cons b t ih =>
    intro h
    simp only [insertBy] at h
    by_cases hab : le a b
    · rw [if_pos hab] at h
      rcases List.mem_cons.mp h with h | h
      · exact Or.inl h
      · exact Or.inr h
    · rw [if_neg hab] at h
      rcases List.mem_cons.mp h with h | h
      · exact Or.inr (h ▸ List.mem_cons_self b t)
      · rcases ih h with h | h
        · exact Or.inl h
        · exact Or.inr (List.mem_cons_of_mem b h)

theorem pairwise_insertBy {α : Type} (le : α → α → Bool)
    (htrans : ∀ x y z, le x y = true → le y z = true → le x z = true)
    (htot : ∀ x y, le x y = true ∨ le y x = true) (a : α) :
    ∀ l : List α, l.Pairwise (fun x y => le x y = true) →
      (insertBy le a l).Pairwise (fun x y => le x y = true) := by
  intro l
  induction l with
  | nil =>
    intro _
    simp [insertBy]
  | cons b t ih =>
    intro hp
    rw [List.pairwise_cons] at hp
    simp only [insertBy]
    by_cases hab : le a b
    · rw [if_pos hab]
      rw [List.pairwise_cons]
      refine ⟨?_, List.pairwise_cons.mpr hp⟩
      intro y hy
      rcases List.mem_cons.mp hy with h | h
      · exact h ▸ hab
      · exact htrans a b y hab (hp.1 y h)
    · rw [if_neg hab]
      rw [List.pairwise_cons]
      refine ⟨?_, ih hp.2⟩
      intro y hy
      rcases mem_insertBy le a y t hy with h | h
      · subst h
        rcases htot b y with hh | hh
        · exact hh
        · exact absurd hh hab
      · exact hp.1 y h

theorem pairwise_sortBy {α : Type} (le : α → α → Bool)
    (htrans : ∀ x y z, le x y = true → le y z = true → le x z = true)
    (htot : ∀ x y, le x y = true ∨ le y x = true) :
    ∀ l : List α, (sortBy le l).Pairwise (fun x y => le x y = true) := by
  intro l
  induction l with
  | nil => simp [sortBy]
  | cons a t ih =>
    simp only [sortBy, List.foldr_cons] at ih ⊢
    exact pairwise_insertBy le htrans htot a _ ih

theorem length_insertBy {α : Type} (le : α → α → Bool) (a : α) :
    ∀ l : List α, (insertBy le a l).length = l.length + 1 := by
  intro l
  induction l with
  | nil => rfl
  | cons b t ih =>
    simp only [insertBy]
    by_cases hab : le a b
    · rw [if_pos hab]
      rfl
    · rw [if_neg hab]
      simp [ih]

theorem length_sortBy {α : Type} (le : α → α → Bool) :
    ∀ l : List α, (sortBy le l).length = l.length := by
  intro l
  induction l with
  | nil => rfl
  | cons a t ih =>
    simp only [sortBy, List.foldr_cons] at ih ⊢
    rw [length_insertBy, ih]
    rfl

theorem sellerLe_trans :
    ∀ x y z, sellerLe x y = true → sellerLe y z = true → sellerLe x z = true := by
  intro x y z hx hy
  simp only [sellerLe, decide_eq_true_eq] at *
  omega

theorem sellerLe_total : ∀ x y, sellerLe x y = true ∨ sellerLe y x = true := by
  intro x y
  simp only [sellerLe, decide_eq_true_eq]
  exact le_total _ _

theorem cardLe_trans :
    ∀ x y z, cardLe x y = true → cardLe y z = true → cardLe x z = true := by
  intro x y z hx hy
  simp only [cardLe, decide_eq_true_eq] at *
  exact le_trans hx hy

theorem cardLe_total : ∀ x y, cardLe x y = true ∨ cardLe y x = true := by
  intro x y
  simp only [cardLe, decide_eq_true_eq]
  exact le_total _ _

/-- C6: in both the console report and the persisted report file, sellers
appear in descending order of the number of covered cards and each seller's
block lists cards in ascending order of stored price; a seller covering two
cards at 50 and 30 shows coverage 2, total 80, and the 30-price card first. -/
theorem C6_report_order :
    (∀ sd : SellerData,
        (report_order sd).Pairwise (fun a b => b.2.length ≤ a.2.length)
        ∧ ∀ p ∈ report_order sd, p.2.Pairwise (fun x y => x.2 ≤ y.2))
    ∧ report_order [("X", [("cardA", 50), ("cardB", 30)])]
        = [("X", [("cardB", 30), ("cardA", 50)])]
    ∧ coverage [("cardB", 30), ("cardA", 50)] = 2
    ∧ totalCost [("cardB", 30), ("cardA", 50)] = 80 := by
  refine ⟨?_, by decide, by decide, ?_⟩
  · intro sd
    constructor
    · unfold report_order
      rw [List.pairwise_map]
      have h := pairwise_sortBy sellerLe sellerLe_trans sellerLe_total sd
      refine h.imp ?_
      intro a b hab
      simp only [sellerLe, decide_eq_true_eq] at hab
      simpa [length_sortBy] using hab
    · intro p hp
      unfold report_order at hp
      obtain ⟨q, _, hq⟩ := List.mem_map.mp hp
      have h := pairwise_sortBy cardLe cardLe_trans cardLe_total q.2
      have h2 := h.imp (fun hxy => by simpa [cardLe, decide_eq_true_eq] using hxy)
      rw [← hq]
      exact h2
  · show ((30 : ℚ) + (50 + 0)) = 80
    norm_num


theorem C6_witness :
    (("X", [("cardB", (30 : ℚ)), ("cardA", 50)])
        ∈ report_order [("X", [("cardA", 50), ("cardB", 30)])])
    ∧ (("X", [("cardB", (30 : ℚ)), ("cardA", 50)]) : String × List (String × ℚ)).2.Pairwise
        (fun x y => x.2 ≤ y.2) :=
  ⟨by decide,
    (C6_report_order.1 [("X", [("cardA", 50), ("cardB", 30)])]).2 _ (by decide)⟩

/-! ## Claim C9 -/

/-- C9: the navigated URL is the fixed search endpoint with the query (card
name plus parenthesized set code when present) placed after `q=`, every space
of the query replaced by `+` — so the final URL contains no space at all and
every non-space character of the query is kept unchanged in order. -/
theorem C9_build_url :
    ∀ c : CardRequest,
      build_url c = searchEndpoint ++ plusForSpace (buildQuery c)
      ∧ (plusForSpace (buildQuery c)).data
          = (buildQuery c).data.map (fun ch => if ch = ' ' then '+' else ch)
      ∧ ∀ ch ∈ (build_url c).data, ch ≠ ' ' := by
  intro c
  refine ⟨rfl, rfl, ?_⟩
  intro ch hch
  rw [show build_url c = searchEndpoint ++ plusForSpace (buildQuery c) from rfl,
    String.data_append] at hch
  rcases List.mem_append.mp hch with h | h
  · intro he
    subst he
    exact absurd h (by decide)
  · rw [show (plusForSpace (buildQuery c)).data
        = (buildQuery c).data.map (fun ch => if ch = ' ' then '+' else ch) from rfl] at h
    obtain ⟨a, _, hm⟩ := List.mem_map.mp h
    intro he
    subst he
    by_cases haa : a = ' '
    · rw [if_pos haa] at hm
      exact absurd hm (by decide)
    · rw [if_neg haa] at hm
      exact haa hm


theorem C9_witness :
    ('h' ∈ (build_url
        { qty := 1, name := "Lightning Bolt", normalized := "lightning bolt", set := "" }).data)
    ∧ 'h' ≠ ' ' :=
  ⟨by decide,
    (C9_build_url
      { qty := 1, name := "Lightning Bolt", normalized := "lightning bolt", set := "" }).2.2
      'h' (by decide)⟩

/-! ## Claim C4 -/

/-- C4 as stated is false: the line regex `^(\d+)[xX]?\s+...` requires the
digit run, so a bare card name with no leading quantity digits is reported as
unrecognized and produces no CardRequest. -/
theorem C4_cex : load_decklist ["Brainstorm"] = [] := by
  decide

/-- C4 (amended): the quantity prefix is required — any single line whose
stripped form does not begin with a digit (be it blank, a comment, or a bare
card name) contributes no CardRequest. -/
theorem C4_qty_required :
    ∀ line : String,
      Option.all (fun d => !pyDigit d) (stripWs line.data).head? = true →
      load_decklist [line] = [] := by
  intro line hd
  have hml : matchLine (stripWs line.data) = none := by
    unfold matchLine
    cases hl : stripWs line.data with
    | nil => simp
    | cons c t =>
      rw [hl] at hd
      simp only [List.head?_cons, Option.all_some, Bool.not_eq_true'] at hd
      simp [List.takeWhile, hd]
  simp only [load_decklist]
  by_cases hif : ((stripWs line.data).isEmpty || startsWithL ['#'] (stripWs line.data)
      || startsWithL ['/', '/'] (stripWs line.data)) = true
  · rw [if_pos hif]
  · rw [if_neg hif, hml]

theorem C4_witness :
    Option.all (fun d => !pyDigit d) (stripWs "Opt".data).head? = true
    ∧ load_decklist ["Opt"] = [] :=
  ⟨by decide, C4_qty_required "Opt" (by decide)⟩

/-! ## Claim C5 -/

/-- C5 as stated is false: the digit run may be `0`, so the Loader produces a
CardRequest with quantity 0 from the line `"0 Brainstorm"`. -/
theorem C5_cex : ¬ ∀ c ∈ load_decklist ["0 Brainstorm"], 1 ≤ c.qty := by
  decide

theorem matchLine_qty_nonneg (l : List Char) (q : Int) (nm : List Char)
    (sc : Option (List Char)) (h : matchLine l = some (q, nm, sc)) : 0 ≤ q := by
  simp only [matchLine] at h
  split at h
  · exact absurd h (by simp)
  · split at h
    · exact absurd h (by simp)
    · split at h
      · exact absurd h (by simp)
      · injection h with h
        have hq := congrArg Prod.fst h
        simp only [] at hq
        rw [← hq]
        exact Int.natCast_nonneg _

/-- C5 (amended): every CardRequest the Loader produces has a nonnegative
quantity (the digit run parses to a natural number), but quantity 0 is
possible — the `≥ 1` bound of the claim does not hold. -/
theorem C5_qty_nonneg :
    ∀ (lines : List String) (c : CardRequest), c ∈ load_decklist lines → 0 ≤ c.qty := by
  intro lines
  induction lines with
  | nil =>
    intro c hc
    cases hc
  | cons line rest ih =>
    intro c hc
    simp only [load_decklist] at hc
    by_cases hif : ((stripWs line.data).isEmpty || startsWithL ['#'] (stripWs line.data)
        || startsWithL ['/', '/'] (stripWs line.data)) = true
    · rw [if_pos hif] at hc
      exact ih c hc
    · rw [if_neg hif] at hc
      cases hml : matchLine (stripWs line.data) with
      | none =>
        rw [hml] at hc
        exact ih c hc
      | some t =>
        obtain ⟨q, nm, sc⟩ := t
        rw [hml] at hc
        simp only [] at hc
        rcases List.mem_cons.mp hc with h | h
        · subst h
          exact matchLine_qty_nonneg (stripWs line.data) q nm sc hml
        · exact ih c h

theorem C5_witness :
    ({ qty := 2, name := "Opt", normalized := "opt", set := "" } : CardRequest)
        ∈ load_decklist ["2 Opt"]
    ∧ 0 ≤ ({ qty := 2, name := "Opt", normalized := "opt", set := "" } : CardRequest).qty :=
  ⟨by decide, C5_qty_nonneg ["2 Opt"] _ (by decide)⟩

/-! ## Claim C8: character lemmas -/

theorem toNat_ofNat_of_lt {n : Nat} (h : n < 55296) : (Char.ofNat n).toNat = n := by
  unfold Char.ofNat
  split
  · rfl
  · rename_i hv
    exact absurd (Or.inl h) hv

theorem char_eq_iff_toNat {c d : Char} : c = d ↔ c.toNat = d.toNat := by
  constructor
  · intro h
    rw [h]
  · intro h
    have h1 : Char.ofNat c.toNat = Char.ofNat d.toNat := by rw [h]
    rwa [Char.ofNat_toNat, Char.ofNat_toNat] at h1

theorem lowerChar_toNat (c : Char) :
    (lowerChar c).toNat =
      if 65 ≤ c.toNat ∧ c.toNat ≤ 90 then c.toNat + 32 else c.toNat := by
  unfold lowerChar
  by_cases h : 65 ≤ c.toNat ∧ c.toNat ≤ 90
  · rw [if_pos h, if_pos h]
    exact toNat_ofNat_of_lt (by omega)
  · rw [if_neg h, if_neg h]

theorem lowerChar_of_not (c : Char) (h : ¬(65 ≤ c.toNat ∧ c.toNat ≤ 90)) :
    lowerChar c = c := by
  unfold lowerChar
  rw [if_neg h]

theorem lowerChar_idem (c : Char) : lowerChar (lowerChar c) = lowerChar c := by
  by_cases h : 65 ≤ c.toNat ∧ c.toNat ≤ 90
  · apply lowerChar_of_not
    rw [lowerChar_toNat, if_pos h]
    omega
  · rw [lowerChar_of_not c h]
    exact lowerChar_of_not c h

theorem pySpace_iff (c : Char) :
    pySpace c = true ↔
      (c.toNat = 32 ∨ c.toNat = 9 ∨ c.toNat = 10 ∨ c.toNat = 13
        ∨ c.toNat = 11 ∨ c.toNat = 12) := by
  unfold pySpace
  simp only [Bool.or_eq_true, beq_iff_eq]
  constructor
  · rintro (((((h | h) | h) | h) | h) | h) <;> subst h <;> decide
  · rintro (h | h | h | h | h | h)
    · exact Or.inl (Or.inl (Or.inl (Or.inl (Or.inl (char_eq_iff_toNat.mpr (by rw [h]; rfl))))))
    · exact Or.inl (Or.inl (Or.inl (Or.inl (Or.inr (char_eq_iff_toNat.mpr (by rw [h]; rfl))))))
    · exact Or.inl (Or.inl (Or.inl (Or.inr (char_eq_iff_toNat.mpr (by rw [h]; rfl)))))
    · exact Or.inl (Or.inl (Or.inr (char_eq_iff_toNat.mpr (by rw [h]; rfl))))
    · exact Or.inl (Or.inr (char_eq_iff_toNat.mpr (by rw [h]; rfl)))
    · exact Or.inr (char_eq_iff_toNat.mpr (by rw [h]; rfl))

theorem lowerChar_of_space (c : Char) (h : pySpace c = true) : lowerChar c = c := by
  apply lowerChar_of_not
  rw [pySpace_iff] at h
  omega

theorem pySpace_lowerChar (c : Char) : pySpace (lowerChar c) = pySpace c := by
  by_cases h : 65 ≤ c.toNat ∧ c.toNat ≤ 90
  · have h1 : (lowerChar c).toNat = c.toNat + 32 := by
      rw [lowerChar_toNat, if_pos h]
    have hc : pySpace c = false := by
      rw [Bool.eq_false_iff]
      intro hh
      rw [pySpace_iff] at hh
      omega
    have hlc : pySpace (lowerChar c) = false := by
      rw [Bool.eq_false_iff]
      intro hh
      rw [pySpace_iff, h1] at hh
      omega
    rw [hc, hlc]
  · rw [lowerChar_of_not c h]

theorem lowerChar_eq_slash (c : Char) : lowerChar c = '/' ↔ c = '/' := by
  rw [char_eq_iff_toNat, char_eq_iff_toNat, lowerChar_toNat]
  have h47 : ('/').toNat = 47 := rfl
  rw [h47]
  by_cases h : 65 ≤ c.toNat ∧ c.toNat ≤ 90
  · rw [if_pos h]
    omega
  · rw [if_neg h]

/-! ## Claim C8: strip and substitution lemmas -/

theorem headOkP_dropWhile (l : List Char) : headOkP (l.dropWhile pySpace) := by
  induction l with
  | nil =>
    intro c hc
    cases hc
  | cons a t ih =>
    intro c hc
    rw [List.dropWhile_cons] at hc
    by_cases ha : pySpace a
    · rw [if_pos ha] at hc
      exact ih c hc
    · rw [if_neg ha] at hc
      rw [List.head?_cons] at hc
      injection hc with hc
      subst hc
      exact Bool.eq_false_iff.mpr ha

theorem exists_append_dropEndWs (y : List Char) : ∃ t, y = dropEndWs y ++ t := by
  obtain ⟨a, ha⟩ := List.dropWhile_suffix (l := y.reverse) pySpace
  have hy : y = (a ++ y.reverse.dropWhile pySpace).reverse := by
    rw [ha, List.reverse_reverse]
  rw [List.reverse_append] at hy
  exact ⟨a.reverse, hy⟩

theorem headOkP_stripWs (l : List Char) : headOkP (stripWs l) := by
  intro c hc
  obtain ⟨t, ht⟩ := exists_append_dropEndWs (l.dropWhile pySpace)
  cases hsw : stripWs l with
  | nil =>
    rw [hsw] at hc
    cases hc
  | cons c0 cs =>
    rw [hsw] at hc
    rw [List.head?_cons] at hc
    injection hc with hc
    have h1 : (l.dropWhile pySpace).head? = some c0 := by
      have h2 : l.dropWhile pySpace = c0 :: (cs ++ t) := by
        rw [ht]
        show dropEndWs (l.dropWhile pySpace) ++ t = c0 :: (cs ++ t)
        rw [show dropEndWs (l.dropWhile pySpace) = stripWs l from rfl, hsw]
        rfl
      rw [h2, List.head?_cons]
    have h3 := headOkP_dropWhile l c0 h1
    rwa [hc] at h3

theorem lastOkP_stripWs (l : List Char) : lastOkP (stripWs l) := by
  intro c hc
  unfold stripWs dropEndWs at hc
  rw [List.getLast?_reverse] at hc
  exact headOkP_dropWhile _ c hc

theorem mem_stripWs {c : Char} {l : List Char} (h : c ∈ stripWs l) : c ∈ l := by
  obtain ⟨t, ht⟩ := exists_append_dropEndWs (l.dropWhile pySpace)
  have h1 : c ∈ l.dropWhile pySpace := by
    rw [ht]
    exact List.mem_append_left _ h
  exact List.IsSuffix.mem h1 (List.dropWhile_suffix pySpace)

theorem dropToEol_eq_nil {l : List Char} (h : '\n' ∉ l) : dropToEol l = [] := by
  induction l with
  | nil => rfl
  | cons c cs ih =>
    simp only [dropToEol]
    rw [if_neg (fun hh : c = '\n' => h (hh ▸ List.mem_cons_self c cs))]
    exact ih (fun hm => h (List.mem_cons_of_mem c hm))

theorem tryMatch_mem {l r : List Char} (h : tryMatch l = some r) {c : Char}
    (hc : c ∈ r) : c ∈ l := by
  unfold tryMatch at h
  split at h
  · rename_i r' heq
    injection h with h
    subst h
    have h1 : c ∈ l.dropWhile pySpace := by
      rw [heq]
      exact List.mem_cons_of_mem _ (List.mem_cons_of_mem _ hc)
    exact List.IsSuffix.mem h1 (List.dropWhile_suffix pySpace)
  · exact absurd h (by simp)

theorem subSlash_cons_noNL {c : Char} {cs : List Char} (h : '\n' ∉ c :: cs) :
    subSlash (c :: cs) =
      match tryMatch (c :: cs) with
      | some _ => []
      | none => c :: subSlash cs := by
  rw [subSlash_cons]
  cases hm : tryMatch (c :: cs) with
  | none => rfl
  | some r =>
    simp only []
    have hr : '\n' ∉ r := fun hin => h (tryMatch_mem hm hin)
    rw [dropToEol_eq_nil hr, subSlash_nil]

theorem subSlash_head {l : List Char} (h : '\n' ∉ l) :
    subSlash l = [] ∨ (subSlash l).head? = l.head? := by
  cases l with
  | nil => exact Or.inl rfl
  | cons c cs =>
    rw [subSlash_cons_noNL h]
    cases hm : tryMatch (c :: cs) with
    | some r => exact Or.inl rfl
    | none => exact Or.inr rfl

theorem subSlash_noDD : ∀ l : List Char, '\n' ∉ l → NoDD (subSlash l) := by
  intro l
  induction l with
  | nil =>
    intro _
    simp [NoDD, subSlash_nil]
  | cons c cs ih =>
    intro h
    rw [subSlash_cons_noNL h]
    cases hm : tryMatch (c :: cs) with
    | some r => simp [NoDD]
    | none =>
      simp only []
      have hcs : '\n' ∉ cs := fun hin => h (List.mem_cons_of_mem c hin)
      unfold NoDD
      rw [List.chain'_cons']
      refine ⟨?_, ih hcs⟩
      intro y hy
      rintro ⟨hc', hy'⟩
      subst hc'
      subst hy'
      rcases subSlash_head hcs with hnil | hhead
      · rw [hnil] at hy
        cases hy
      · rw [hhead] at hy
        cases cs with
        | nil => cases hy
        | cons d ds =>
          rw [List.head?_cons] at hy
          rw [Option.mem_def] at hy
          injection hy with hy
          subst hy
          have : tryMatch ('/' :: '/' :: ds) = some ds := rfl
          rw [this] at hm
          cases hm

theorem lastOkP_tail {c : Char} {cs : List Char} (h : lastOkP (c :: cs))
    (hne : cs ≠ []) : lastOkP cs := by
  intro x hx
  apply h x
  cases cs with
  | nil => exact absurd rfl hne
  | cons d ds =>
    rw [List.getLast?_cons_cons]
    exact hx

theorem tryMatch_cons_space {c : Char} {cs : List Char} (hc : pySpace c = true) :
    tryMatch (c :: cs) = tryMatch cs := by
  unfold tryMatch
  rw [List.dropWhile_cons, if_pos hc]

theorem subSlash_lastOk : ∀ l : List Char, '\n' ∉ l → lastOkP l →
    lastOkP (subSlash l) := by
  intro l
  induction l with
  | nil =>
    intro _ _ c hc
    cases hc
  | cons c cs ih =>
    intro h hlast
    rw [subSlash_cons_noNL h]
    cases hm : tryMatch (c :: cs) with
    | some r =>
      intro c0 hc0
      cases hc0
    | none =>
      simp only []
      have hcs : '\n' ∉ cs := fun hin => h (List.mem_cons_of_mem c hin)
      intro c0 hc0
      cases hsub : subSlash cs with
      | nil =>
        rw [hsub, List.getLast?_singleton] at hc0
        injection hc0 with hc0
        subst hc0
        cases cs with
        | nil => exact hlast c (by rw [List.getLast?_singleton])
        | cons d ds =>
          have hsome : ∃ r, tryMatch (d :: ds) = some r := by
            rcases htm : tryMatch (d :: ds) with _ | r
            · rw [subSlash_cons_noNL hcs, htm] at hsub
              cases hsub
            · exact ⟨r, rfl⟩
          obtain ⟨r, hr⟩ := hsome
          by_cases hcw : pySpace c
          · rw [tryMatch_cons_space hcw, hr] at hm
            cases hm
          · exact Bool.eq_false_iff.mpr hcw
      | cons d ds =>
        rw [hsub, List.getLast?_cons_cons, ← hsub] at hc0
        have hne : cs ≠ [] := by
          intro hh
          rw [hh, subSlash_nil] at hsub
          cases hsub
        exact ih hcs (lastOkP_tail hlast hne) c0 hc0

/-! ## Claim C8: collapse lemmas -/

theorem collapseWs_head (l : List Char) :
    (collapseWs l).head? = l.head?.map (fun c => if pySpace c then ' ' else c) := by
  cases l with
  | nil => rfl
  | cons c cs =>
    rw [collapseWs_cons]
    by_cases h : pySpace c
    · rw [if_pos h]
      simp [h]
    · rw [if_neg h]
      simp [h]

theorem collapseWs_eq_nil_iff (l : List Char) : collapseWs l = [] ↔ l = [] := by
  cases l with
  | nil => simp [collapseWs_nil]
  | cons c cs =>
    rw [collapseWs_cons]
    by_cases h : pySpace c
    · rw [if_pos h]
      simp
    · rw [if_neg h]
      simp

theorem collapseWs_chain :
    ∀ (n : Nat) (l : List Char), l.length ≤ n → NoDD l →
      NoDD (collapseWs l) ∧ NoWW (collapseWs l)
      ∧ ∀ x ∈ collapseWs l, pySpace x = true → x = ' ' := by
  intro n
  induction n with
  | zero =>
    intro l hl _
    have hnil : l = [] := by
      cases l
      · rfl
      · simp at hl
    subst hnil
    refine ⟨by simp [NoDD, collapseWs_nil], by simp [NoWW, collapseWs_nil], ?_⟩
    intro x hx
    rw [collapseWs_nil] at hx
    cases hx
  | succ n ih =>
    intro l hl hdd
    cases l with
    | nil =>
      refine ⟨by simp [NoDD, collapseWs_nil], by simp [NoWW, collapseWs_nil], ?_⟩
      intro x hx
      rw [collapseWs_nil] at hx
      cases hx
    | cons c cs =>
      rw [collapseWs_cons]
      simp only [List.length_cons] at hl
      by_cases hc : pySpace c
      · rw [if_pos hc]
        have hlen : (cs.dropWhile pySpace).length ≤ n := by
          have := length_dropWhile_le pySpace cs
          omega
        have hdd' : NoDD (cs.dropWhile pySpace) :=
          List.Chain'.suffix hdd.tail (List.dropWhile_suffix pySpace)
        obtain ⟨h1, h2, h3⟩ := ih (cs.dropWhile pySpace) hlen hdd'
        refine ⟨?_, ?_, ?_⟩
        · unfold NoDD
          rw [List.chain'_cons']
          refine ⟨?_, h1⟩
          intro y _
          rintro ⟨hsp, _⟩
          exact absurd hsp (by decide)
        · unfold NoWW
          rw [List.chain'_cons']
          refine ⟨?_, h2⟩
          intro y hy
          rintro ⟨_, hyw⟩
          rw [Option.mem_def, collapseWs_head, Option.map_eq_some'] at hy
          obtain ⟨d, hd, hfd⟩ := hy
          have hdn : pySpace d = false := headOkP_dropWhile cs d hd
          rw [if_neg (by simp [hdn])] at hfd
          subst hfd
          rw [hdn] at hyw
          cases hyw
        · intro x hx hxw
          rcases List.mem_cons.mp hx with h | h
          · exact h
          · exact h3 x h hxw
      · rw [if_neg hc]
        have hlen : cs.length ≤ n := by omega
        have hdd' : NoDD cs := hdd.tail
        obtain ⟨h1, h2, h3⟩ := ih cs hlen hdd'
        refine ⟨?_, ?_, ?_⟩
        · unfold NoDD
          rw [List.chain'_cons']
          refine ⟨?_, h1⟩
          intro y hy
          rintro ⟨hc', hy'⟩
          rw [Option.mem_def, collapseWs_head, Option.map_eq_some'] at hy
          obtain ⟨d, hd, hfd⟩ := hy
          by_cases hdw : pySpace d
          · rw [if_pos hdw] at hfd
            rw [← hfd] at hy'
            cases hy'
          · rw [if_neg hdw] at hfd
            subst hfd
            have hrel := (List.chain'_cons'.mp hdd).1 d hd
            exact hrel ⟨hc', hy'⟩
        · unfold NoWW
          rw [List.chain'_cons']
          refine ⟨?_, h2⟩
          intro y _
          rintro ⟨hcw, _⟩
          rw [hcw] at hc
          exact hc rfl
        · intro x hx hxw
          rcases List.mem_cons.mp hx with h | h
          · subst h
            rw [hxw] at hc
            exact absurd rfl hc
          · exact h3 x h hxw

theorem collapseWs_lastOk :
    ∀ (n : Nat) (l : List Char), l.length ≤ n → lastOkP l →
      lastOkP (collapseWs l) := by
  intro n
  induction n with
  | zero =>
    intro l hl _
    have hnil : l = [] := by
      cases l
      · rfl
      · simp at hl
    subst hnil
    intro c hc
    rw [collapseWs_nil] at hc
    cases hc
  | succ n ih =>
    intro l hl hlast
    cases l with
    | nil =>
      intro c hc
      rw [collapseWs_nil] at hc
      cases hc
    | cons c cs =>
      rw [collapseWs_cons]
      simp only [List.length_cons] at hl
      by_cases hc : pySpace c
      · rw [if_pos hc]
        intro x hx
        cases hz : collapseWs (cs.dropWhile pySpace) with
        | nil =>
          rw [collapseWs_eq_nil_iff] at hz
          rw [List.dropWhile_eq_nil_iff] at hz
          exfalso
          cases cs with
          | nil =>
            have := hlast c (by rw [List.getLast?_singleton])
            rw [hc] at this
            cases this
          | cons d ds =>
            have hmem : ∃ a, (d :: ds).getLast? = some a ∧ a ∈ d :: ds := by
              clear hz hlast hl hx
              induction ds generalizing d with
              | nil => exact ⟨d, by rw [List.getLast?_singleton], List.mem_singleton.mpr rfl⟩
              | cons e es ihd =>
                obtain ⟨a, ha, hm⟩ := ihd e
                exact ⟨a, by rw [List.getLast?_cons_cons]; exact ha,
                  List.mem_cons_of_mem d hm⟩
            obtain ⟨a, ha, hm⟩ := hmem
            have h1 := hlast a (by rw [List.getLast?_cons_cons]; exact ha)
            have h2 := hz a hm
            rw [h1] at h2
            cases h2
        | cons d ds =>
          rw [hz, List.getLast?_cons_cons, ← hz] at hx
          have hne : cs.dropWhile pySpace ≠ [] := by
            intro hh
            rw [hh, collapseWs_nil] at hz
            cases hz
          have hcsne : cs ≠ [] := by
            intro hh
            subst hh
            exact hne rfl
          have hlastd : lastOkP (cs.dropWhile pySpace) := by
            intro a ha
            apply lastOkP_tail hlast hcsne a
            obtain ⟨t, ht⟩ := List.dropWhile_suffix (l := cs) pySpace
            rw [← ht, List.getLast?_append, ha]
            rfl
          exact ih (cs.dropWhile pySpace)
            (le_trans (length_dropWhile_le pySpace cs) (by omega)) hlastd x hx
      · rw [if_neg hc]
        intro x hx
        cases hz : collapseWs cs with
        | nil =>
          rw [hz, List.getLast?_singleton] at hx
          injection hx with hx
          subst hx
          rw [collapseWs_eq_nil_iff] at hz
          subst hz
          exact hlast c (by rw [List.getLast?_singleton])
        | cons d ds =>
          rw [hz, List.getLast?_cons_cons, ← hz] at hx
          have hcsne : cs ≠ [] := by
            intro hh
            rw [hh, collapseWs_nil] at hz
            cases hz
          exact ih cs (by omega) (lastOkP_tail hlast hcsne) x hx

/-! ## Claim C8: lowering and the fixpoint argument -/

theorem lowerL_clean (y : List Char)
    (hh : headOkP y) (hl : lastOkP y) (hdd : NoDD y) (hww : NoWW y)
    (hsp : ∀ c ∈ y, pySpace c = true → c = ' ') :
    headOkP (lowerL y) ∧ lastOkP (lowerL y) ∧ NoDD (lowerL y) ∧ NoWW (lowerL y)
    ∧ (∀ c ∈ lowerL y, pySpace c = true → c = ' ')
    ∧ (∀ c ∈ lowerL y, lowerChar c = c) := by
  refine ⟨?_, ?_, ?_, ?_, ?_, ?_⟩
  · intro c hc
    unfold lowerL at hc
    rw [List.head?_map, Option.map_eq_some'] at hc
    obtain ⟨d, hd, hfd⟩ := hc
    rw [← hfd, pySpace_lowerChar]
    exact hh d hd
  · intro c hc
    unfold lowerL at hc
    rw [List.getLast?_map, Option.map_eq_some'] at hc
    obtain ⟨d, hd, hfd⟩ := hc
    rw [← hfd, pySpace_lowerChar]
    exact hl d hd
  · unfold NoDD lowerL
    rw [List.chain'_map]
    refine hdd.imp ?_
    intro a b hab
    rintro ⟨ha, hb⟩
    exact hab ⟨(lowerChar_eq_slash a).mp ha, (lowerChar_eq_slash b).mp hb⟩
  · unfold NoWW lowerL
    rw [List.chain'_map]
    refine hww.imp ?_
    intro a b hab
    rintro ⟨ha, hb⟩
    rw [pySpace_lowerChar] at ha hb
    exact hab ⟨ha, hb⟩
  · intro c hc hcw
    unfold lowerL at hc
    obtain ⟨d, hd, hfd⟩ := List.mem_map.mp hc
    rw [← hfd] at hcw ⊢
    rw [pySpace_lowerChar] at hcw
    rw [lowerChar_of_space d hcw]
    exact hsp d hd hcw
  · intro c hc
    obtain ⟨d, _, hfd⟩ := List.mem_map.mp hc
    rw [← hfd]
    exact lowerChar_idem d

theorem dropWhile_eq_self_of_headOk {l : List Char} (h : headOkP l) :
    l.dropWhile pySpace = l := by
  cases l with
  | nil => rfl
  | cons c cs =>
    rw [List.dropWhile_cons, if_neg (by simp [h c (List.head?_cons)])]

theorem stripWs_eq_self_of_clean {y : List Char} (hh : headOkP y) (hl : lastOkP y) :
    stripWs y = y := by
  unfold stripWs dropEndWs
  rw [dropWhile_eq_self_of_headOk hh]
  have hrev : headOkP y.reverse := by
    intro c hc
    rw [List.head?_reverse] at hc
    exact hl c hc
  rw [dropWhile_eq_self_of_headOk hrev, List.reverse_reverse]

theorem noNL_of_spOnly {y : List Char} (hsp : ∀ c ∈ y, pySpace c = true → c = ' ') :
    '\n' ∉ y := by
  intro hin
  have := hsp '\n' hin (by decide)
  cases this

theorem subSlash_eq_self_of_clean :
    ∀ y : List Char, NoDD y → NoWW y → (∀ c ∈ y, pySpace c = true → c = ' ') →
      subSlash y = y := by
  intro y
  induction y with
  | nil =>
    intro _ _ _
    exact subSlash_nil
  | cons c cs ih =>
    intro hdd hww hsp
    have hsp' : ∀ x ∈ cs, pySpace x = true → x = ' ' :=
      fun x hx => hsp x (List.mem_cons_of_mem c hx)
    have hnl : '\n' ∉ c :: cs := noNL_of_spOnly hsp
    have hm : tryMatch (c :: cs) = none := by
      by_cases hcw : pySpace c
      · rw [tryMatch_cons_space hcw]
        unfold tryMatch
        cases cs with
        | nil => rfl
        | cons d ds =>
          have hdn : pySpace d = false := by
            have hrel := (List.chain'_cons'.mp hww).1 d (List.head?_cons)
            cases hdw : pySpace d
            · rfl
            · exact absurd ⟨hcw, hdw⟩ hrel
          rw [List.dropWhile_cons, if_neg (by simp [hdn])]
          cases hd : decEq d '/' with
          | isFalse hne =>
            cases ds with
            | nil => simp [hne]
            | cons e es => simp [hne]
          | isTrue heq =>
            subst heq
            cases ds with
            | nil => rfl
            | cons e es =>
              have hrel := (List.chain'_cons'.mp hdd.tail).1 e (List.head?_cons)
              have hen : ¬(e = '/') := fun hh => hrel ⟨rfl, hh⟩
              simp [hen]
      · unfold tryMatch
        rw [List.dropWhile_cons, if_neg (by simp [hcw])]
        cases hd : decEq c '/' with
        | isFalse hne =>
          cases cs with
          | nil => simp [hne]
          | cons e es => simp [hne]
        | isTrue heq =>
          subst heq
          cases cs with
          | nil => rfl
          | cons e es =>
            have hrel := (List.chain'_cons'.mp hdd).1 e (List.head?_cons)
            have hen : ¬(e = '/') := fun hh => hrel ⟨rfl, hh⟩
            simp [hen]
    rw [subSlash_cons_noNL hnl, hm]
    simp only []
    rw [ih hdd.tail hww.tail hsp']

theorem collapseWs_eq_self_of_clean :
    ∀ y : List Char, NoWW y → (∀ c ∈ y, pySpace c = true → c = ' ') →
      collapseWs y = y := by
  intro y
  induction y with
  | nil =>
    intro _ _
    exact collapseWs_nil
  | cons c cs ih =>
    intro hww hsp
    have hsp' : ∀ x ∈ cs, pySpace x = true → x = ' ' :=
      fun x hx => hsp x (List.mem_cons_of_mem c hx)
    rw [collapseWs_cons]
    by_cases hcw : pySpace c
    · rw [if_pos hcw]
      have hce : c = ' ' := hsp c (List.mem_cons_self c cs) hcw
      have hdrop : cs.dropWhile pySpace = cs := by
        cases cs with
        | nil => rfl
        | cons d ds =>
          have hrel := (List.chain'_cons'.mp hww).1 d (List.head?_cons)
          have hdn : pySpace d = false := by
            cases hdw : pySpace d
            · rfl
            · exact absurd ⟨hcw, hdw⟩ hrel
          rw [List.dropWhile_cons, if_neg (by simp [hdn])]
      rw [hdrop, ih hww.tail hsp', hce]
    · rw [if_neg hcw, ih hww.tail hsp']

theorem lowerL_eq_self_of_fix :
    ∀ y : List Char, (∀ c ∈ y, lowerChar c = c) → lowerL y = y := by
  intro y
  induction y with
  | nil =>
    intro _
    rfl
  | cons c cs ih =>
    intro hfix
    unfold lowerL
    rw [List.map_cons]
    rw [hfix c (List.mem_cons_self c cs)]
    have := ih (fun x hx => hfix x (List.mem_cons_of_mem c hx))
    unfold lowerL at this
    rw [this]

theorem normalizeL_clean (l : List Char) (hnl : '\n' ∉ l) : CleanP (normalizeL l) := by
  have h0h : headOkP (stripWs l) := headOkP_stripWs l
  have h0l : lastOkP (stripWs l) := lastOkP_stripWs l
  have h0n : '\n' ∉ stripWs l := fun hin => hnl (mem_stripWs hin)
  have h1dd : NoDD (subSlash (stripWs l)) := subSlash_noDD (stripWs l) h0n
  have h1l : lastOkP (subSlash (stripWs l)) := subSlash_lastOk (stripWs l) h0n h0l
  have h1h : headOkP (subSlash (stripWs l)) := by
    intro c hc
    rcases subSlash_head h0n with hnil | hhead
    · rw [hnil] at hc
      cases hc
    · rw [hhead] at hc
      exact h0h c hc
  obtain ⟨h2dd, h2ww, h2sp⟩ :=
    collapseWs_chain (subSlash (stripWs l)).length (subSlash (stripWs l)) le_rfl h1dd
  have h2l : lastOkP (collapseWs (subSlash (stripWs l))) :=
    collapseWs_lastOk (subSlash (stripWs l)).length (subSlash (stripWs l)) le_rfl h1l
  have h2h : headOkP (collapseWs (subSlash (stripWs l))) := by
    intro c hc
    rw [collapseWs_head, Option.map_eq_some'] at hc
    obtain ⟨d, hd, hfd⟩ := hc
    have hdn : pySpace d = false := h1h d hd
    rw [if_neg (by simp [hdn])] at hfd
    rw [← hfd]
    exact hdn
  obtain ⟨g1, g2, g3, g4, g5, g6⟩ :=
    lowerL_clean (collapseWs (subSlash (stripWs l))) h2h h2l h2dd h2ww h2sp
  exact ⟨g1, g2, g3, g4, g5, g6⟩

theorem normalizeL_fix (y : List Char) (hc : CleanP y) : normalizeL y = y := by
  obtain ⟨hh, hl, hdd, hww, hsp, hfix⟩ := hc
  unfold normalizeL
  rw [stripWs_eq_self_of_clean hh hl]
  rw [subSlash_eq_self_of_clean y hdd hww hsp]
  rw [collapseWs_eq_self_of_clean y hww hsp]
  exact lowerL_eq_self_of_fix y hfix

/-! ## Claim C8 -/

/-- C8 as stated is false: `normalize_card_name` is not idempotent on every
string.  On `"//\na"` the substitution `\s*//.*` stops at the newline, the
newline is then collapsed to a leading space, and re-normalizing strips that
space. -/
theorem C8_cex :
    normalize_card_name (normalize_card_name "//\na") ≠ normalize_card_name "//\na" := by
  decide

/-- C8 (amended): `normalize_card_name` is idempotent on every string that
contains no newline (in particular on every decklist line), and the two
concrete examples of the claim hold. -/
theorem C8_normalize_idem :
    (∀ s : String, '\n' ∉ s.data →
        normalize_card_name (normalize_card_name s) = normalize_card_name s)
    ∧ normalize_card_name "Sanctum of the Sun // Sanctum of Stars" = "sanctum of the sun"
    ∧ normalize_card_name "  Lightning   Bolt " = "lightning bolt" := by
  refine ⟨?_, by decide, by decide⟩
  intro s hnl
  show (⟨normalizeL (⟨normalizeL s.data⟩ : String).data⟩ : String) = ⟨normalizeL s.data⟩
  have : normalizeL (normalizeL s.data) = normalizeL s.data :=
    normalizeL_fix (normalizeL s.data) (normalizeL_clean s.data hnl)
  exact congrArg String.mk this

theorem C8_witness :
    ('\n' ∉ ("Lightning Bolt" : String).data)
    ∧ normalize_card_name (normalize_card_name "Lightning Bolt")
        = normalize_card_name "Lightning Bolt" :=
  ⟨by decide, C8_normalize_idem.1 "Lightning Bolt" (by decide)⟩

end TopDeck
